import Mathlib

/-!
Verification development for the LerianStudio/ai-prompts repository.

Part A models the command-safety policy classifier described in the design
document (Invocation Detector, Safe-List Filter, Danger-List Matcher,
Verdict Renderer).  The classifier's implementation is not part of the
checked-in sources, so every definition in Part A is modelled from the
spec, as indicated in its doc comment.

Part B embeds `update_memory_mcp.py`, the checked-in Python script that
rewrites Memory MCP references in prompt files.  Its definitions are
translated directly from the source.
-/

set_option maxHeartbeats 4000000
set_option maxRecDepth 4096

/-! ### Basic character-list string machinery -/

/-- Lowercase every character of a character-list string. -/
def lowerStr (s : List Char) : List Char := s.map Char.toLower

/-- Boolean test that `t` is a prefix of `s`. -/
def isPrefixB : List Char → List Char → Bool
  | [], _ => true
  | _ :: _, [] => false
  | a :: as, b :: bs => a == b && isPrefixB as bs

/-- Boolean test that `t` occurs contiguously anywhere inside `s`. -/
def isInfixB (t : List Char) : List Char → Bool
  | [] => isPrefixB t []
  | c :: rest => isPrefixB t (c :: rest) || isInfixB t rest

/-- Boolean test that `t` is a suffix of `s`. -/
def isSuffixB (t s : List Char) : Bool := isPrefixB t.reverse s.reverse

/-! ### Part A: the command-safety classifier, modelled from the spec -/

/-- Modelled from the spec: the verdict type — ALLOW, or BLOCK carrying the
reason text of the danger rule that fired (§3 Data Model). -/
inductive Verdict where
  | allow : Verdict
  | block (reason : List Char) : Verdict
deriving DecidableEq, Repr

/-- Modelled from the spec: the governed tool's name (a version-control
command-line tool, §GLOSSARY). -/
def gitTool : List Char := "git".data

/-- Modelled from the spec: single-character command boundaries recognized by
the Invocation Detector — whitespace, `;`, `|`, `&`, backtick (§4.1). -/
def isSepChar (c : Char) : Bool :=
  c == ' ' || c == '\t' || c == '\n' || c == ';' || c == '|' || c == '&' || c == '`'

/-- Modelled from the spec: detection of the two-character command-substitution
boundary: the tail begins with `(` followed directly by the tool name (§4.1). -/
def dollarHit (t : List Char) : List Char → Bool
  | [] => false
  | c :: r => c == '(' && isPrefixB t r

/-- Modelled from the spec: scan for the governed tool's name preceded by a
command boundary at any non-initial position of the string (§4.1). -/
def detectFrom (t : List Char) : List Char → Bool
  | [] => false
  | c :: rest =>
      (c == '$' && dollarHit t rest) || (isSepChar c && isPrefixB t rest) ||
        detectFrom t rest

/-- Modelled from the spec: the Invocation Detector — true iff the string
contains the governed tool's name at the start of the string or preceded by a
command boundary (§4.1). -/
def detectInvocation (t s : List Char) : Bool :=
  isPrefixB t s || detectFrom t s

/-- Modelled from the spec: shell metacharacters whose presence means the
command is not a single plain safe invocation (chaining, pipes, substitution). -/
def metaChar (c : Char) : Bool :=
  c == ';' || c == '&' || c == '|' || c == '`' || c == '$' || c == '(' || c == ')'

/-- Does the string contain any shell metacharacter? -/
def containsMeta (s : List Char) : Bool := s.any metaChar

/-- True iff the string contains no shell metacharacter. -/
def noMetaStr (s : List Char) : Bool := !containsMeta s

/-- Modelled from the spec: a SafeRule matcher — the safe pattern is anchored
at the start of the (lowercased) command and the command contains no shell
metacharacter, so a chained command never matches a safe pattern (§4.2). -/
def safeMatch (pat s : List Char) : Bool := isPrefixB pat s && !containsMeta s

/-- Modelled from the spec: the curated list of known-benign sub-command
patterns (§4.2: status, log, listing forms, dry-run fetch). -/
def safeRules : List (List Char) :=
  [ "git status".data
  , "git log".data
  , "git diff".data
  , "git show".data
  , "git branch --list".data
  , "git remote -v".data
  , "git fetch --dry-run".data
  ]

/-- Modelled from the spec: the ordered DangerRules table, pairs of
(pattern, reason-text).  Narrower, higher-specificity forms precede the
broader forms they are textually nested within (§4.3). -/
def dangerRules : List (List Char × List Char) :=
  [ ("git push --force".data, "force push rewrites remote history and is blocked".data)
  , ("git push".data, "push is blocked".data)
  , ("git commit".data, "commit is blocked".data)
  , ("git add".data, "adding to the staging area is blocked".data)
  , ("git pull".data, "pull is blocked".data)
  , ("git fetch".data, "fetch without a dry-run qualifier is blocked".data)
  , ("git reset --hard".data, "hard reset destroys local history and is blocked".data)
  , ("git reset".data, "reset is blocked".data)
  , ("git clean".data, "clean removes untracked files and is blocked".data)
  , ("git rebase".data, "history rewriting by rebase is blocked".data)
  , ("git merge".data, "history rewriting by merge is blocked".data)
  , ("git cherry-pick".data, "history rewriting by cherry-pick is blocked".data)
  , ("git rm".data, "removing tracked files is blocked".data)
  , ("git mv".data, "moving or renaming tracked files is blocked".data)
  , ("git branch -d".data, "branch deletion is blocked".data)
  , ("git branch -m".data, "branch renaming is blocked".data)
  , ("git tag -d".data, "tag deletion is blocked".data)
  , ("git checkout".data, "branch switching is blocked".data)
  , ("git switch".data, "branch switching is blocked".data)
  , ("git init".data, "repository initialization is blocked".data)
  , ("git clone".data, "cloning is blocked".data)
  , ("git stash drop".data, "destructive stash operation is blocked".data)
  , ("git stash clear".data, "destructive stash operation is blocked".data)
  , ("git stash pop".data, "destructive stash operation is blocked".data)
  , ("git stash apply".data, "destructive stash operation is blocked".data)
  , ("git submodule".data, "submodule mutation is blocked".data)
  , ("git remote add".data, "remote mutation is blocked".data)
  , ("git remote remove".data, "remote mutation is blocked".data)
  , ("git remote rename".data, "remote mutation is blocked".data)
  , ("git remote set-url".data, "remote mutation is blocked".data)
  , ("git config".data, "configuration mutation is blocked".data)
  ]

/-- Modelled from the spec: the Safe-List Filter over a given rule table —
true iff any SafeRule matcher matches the command (§4.2). -/
def safeFilterWith (st : List (List Char)) (s : List Char) : Bool :=
  st.any (fun pat => safeMatch pat s)

/-- The Safe-List Filter over the configured SafeRules table. -/
def safeFilter (s : List Char) : Bool := safeFilterWith safeRules s

/-- Modelled from the spec: the Danger-List Matcher — scans an ordered table
of DangerRules and returns the reason-text of the first match, or none (§4.3). -/
def dangerScan : List (List Char × List Char) → List Char → Option (List Char)
  | [], _ => none
  | (pat, reason) :: rest, s =>
      if isInfixB pat s then some reason else dangerScan rest s

/-- Modelled from the spec: the Verdict Renderer over explicit rule tables —
if the Invocation Detector is false, ALLOW; else if the Safe-List Filter is
true, ALLOW; else if the Danger-List Matcher finds a reason, BLOCK(reason);
else ALLOW (§4.4). -/
def evalWith (st : List (List Char)) (dt : List (List Char × List Char))
    (s : List Char) : Verdict :=
  if detectInvocation gitTool s then
    if safeFilterWith st s then Verdict.allow
    else
      match dangerScan dt s with
      | some reason => Verdict.block reason
      | none => Verdict.allow
  else Verdict.allow

/-- The Verdict Renderer over the configured rule tables, acting on an
already-lowercased command. -/
def evalL (s : List Char) : Verdict := evalWith safeRules dangerRules s

/-- Modelled from the spec: full evaluation of an untrusted RawCommand string;
matching is case-insensitive, realized by lowercasing the input once (§4.2,
§4.3, §8). -/
def evaluate (raw : String) : Verdict := evalL (lowerStr raw.data)

/-- The five chaining constructs of the injection-resistance property:
`;`, `&&`, `|`, backticks, and command substitution (§8). -/
inductive ChainOp where
  | semi | andand | pipe | backtick | subst
deriving DecidableEq, Repr

/-- Characters inserted before the chained sub-command. -/
def sepPre : ChainOp → String
  | ChainOp.semi => ";"
  | ChainOp.andand => "&&"
  | ChainOp.pipe => "|"
  | ChainOp.backtick => "`"
  | ChainOp.subst => "$("

/-- Characters inserted after the chained sub-command. -/
def sepPost : ChainOp → String
  | ChainOp.backtick => "`"
  | ChainOp.subst => ")"
  | _ => ""

/-- Chain the sub-command `d` after the prefix `p` via the given construct. -/
def chainS (op : ChainOp) (p d : String) : String :=
  p ++ sepPre op ++ d ++ sepPost op

/-- Modelled from the spec: an ambient environment (a clock value and a file
system) that a non-pure evaluator could consult; the classifier never does
(§4.4: no time-dependent or filesystem-dependent behavior). -/
structure AmbientEnv where
  clock : Nat
  fileSystem : String → List Char

/-- Modelled from the spec: evaluation in an ambient environment — the
classifier reads nothing from the environment (§4.4, §5). -/
def evaluateIn (_env : AmbientEnv) (raw : String) : Verdict := evaluate raw

/-- Two successive evaluations of the same RawCommand (§8 Determinism). -/
def evalTwice (raw : String) : Verdict × Verdict := (evaluate raw, evaluate raw)

/-! ### Part B: embedding of `update_memory_mcp.py` -/

/-- A replacement rule of the REPLACEMENTS table: either a plain literal
pattern with a literal replacement, or a contextual pattern `pre ++ (.+)`
whose replacement is `tplA ++ group ++ tplB` (the regex group `(.+)` is a
greedy run of non-newline characters, substituted for the backreference). -/
inductive Rule where
  | lit (pat rep : List Char) : Rule
  | ctx (pre tplA tplB : List Char) : Rule
deriving DecidableEq

/-- Fuel-indexed global literal substitution: replaces every non-overlapping
occurrence of `pat` in `s`, scanning left to right, exactly as `re.sub` does
for a pattern with no metacharacters.  The fuel `|s|` always suffices for a
non-empty pattern. -/
def subLitF : Nat → List Char → List Char → List Char → List Char
  | 0, _, _, s => s
  | _ + 1, _, _, [] => []
  | f + 1, pat, rep, c :: s =>
      if isPrefixB pat (c :: s) then
        rep ++ subLitF f pat rep (List.drop pat.length (c :: s))
      else
        c :: subLitF f pat rep s

/-- Global literal substitution of `pat` by `rep` in `s`. -/
def subLit (pat rep s : List Char) : List Char := subLitF s.length pat rep s

/-- Fuel-indexed contextual substitution for a pattern `pre ++ (.+)`: at the
leftmost position where the literal `pre` matches and at least one
non-newline character follows, the greedy group runs to the end of the line
and the whole match is replaced by `tplA ++ group ++ tplB`; scanning resumes
after the match, exactly as `re.sub` does. -/
def subCtxF : Nat → List Char → List Char → List Char → List Char → List Char
  | 0, _, _, _, s => s
  | _ + 1, _, _, _, [] => []
  | f + 1, pre, tplA, tplB, c :: s =>
      if isPrefixB pre (c :: s) then
        let rest := List.drop pre.length (c :: s)
        let grp := rest.takeWhile (fun x => !(x == '\n'))
        if grp.isEmpty then c :: subCtxF f pre tplA tplB s
        else tplA ++ grp ++ tplB ++
          subCtxF f pre tplA tplB (rest.dropWhile (fun x => !(x == '\n')))
      else
        c :: subCtxF f pre tplA tplB s

/-- Contextual substitution of the pattern `pre ++ (.+)` in `s`. -/
def subCtx (pre tplA tplB s : List Char) : List Char := subCtxF s.length pre tplA tplB s

/-- Apply one replacement rule to a content string (one `re.sub` call). -/
def applyRule (s : List Char) (r : Rule) : List Char :=
  match r with
  | Rule.lit pat rep => subLit pat rep s
  | Rule.ctx pre tplA tplB => subCtx pre tplA tplB s

/-- Simple pattern replacement for backticked `memory_store_chunk`. -/
def ruleLitStoreChunk : Rule :=
  Rule.lit "`memory_store_chunk`".data
    "`mcp__lerian-memory__memory_create` with `operation=\"store_chunk\"`".data

/-- Simple pattern replacement for backticked `memory_search`. -/
def ruleLitSearch : Rule :=
  Rule.lit "`memory_search`".data
    "`mcp__lerian-memory__memory_read` with `operation=\"search\"`".data

/-- Simple pattern replacement for backticked `memory_store_decision`. -/
def ruleLitStoreDecision : Rule :=
  Rule.lit "`memory_store_decision`".data
    "`mcp__lerian-memory__memory_create` with `operation=\"store_decision\"`".data

/-- Simple pattern replacement for backticked `memory_tasks`. -/
def ruleLitTasks : Rule :=
  Rule.lit "`memory_tasks`".data
    "`mcp__lerian-memory__memory_tasks` with `operation=\"todo_write\"`".data

/-- Simple pattern replacement for backticked `memory_create_thread`. -/
def ruleLitCreateThread : Rule :=
  Rule.lit "`memory_create_thread`".data
    "`mcp__lerian-memory__memory_create` with `operation=\"create_thread\"`".data

/-- Contextual replacement for `memory_store_chunk with (.+)`. -/
def ruleCtxStoreChunk : Rule :=
  Rule.ctx "memory_store_chunk with ".data
    "Use `mcp__lerian-memory__memory_create` with:\n      ```\n      operation=\"store_chunk\"\n      options=\x7b\n        \"content\": \"".data
    "\",\n        \"repository\": \"github.com/[org]/[repo]\",\n        \"session_id\": \"[current-session]\"\n      \x7d\n      ```".data

/-- Contextual replacement for `memory_search for (.+)`. -/
def ruleCtxSearch : Rule :=
  Rule.ctx "memory_search for ".data
    "Use `mcp__lerian-memory__memory_read` with:\n      ```\n      operation=\"search\"\n      options=\x7b\n        \"query\": \"".data
    "\",\n        \"repository\": \"github.com/[org]/[repo]\"\n      \x7d\n      ```".data

/-- Contextual replacement for `memory_store_decision for (.+)`. -/
def ruleCtxStoreDecision : Rule :=
  Rule.ctx "memory_store_decision for ".data
    "Use `mcp__lerian-memory__memory_create` with:\n      ```\n      operation=\"store_decision\"\n      options=\x7b\n        \"decision\": \"".data
    "\",\n        \"rationale\": \"[rationale]\",\n        \"repository\": \"github.com/[org]/[repo]\",\n        \"session_id\": \"[current-session]\"\n      \x7d\n      ```".data

/-- Contextual replacement for `memory_tasks for (.+)`. -/
def ruleCtxTasks : Rule :=
  Rule.ctx "memory_tasks for ".data
    "Use `mcp__lerian-memory__memory_tasks` with:\n      ```\n      operation=\"todo_write\"\n      options=\x7b\n        \"todos\": [\x7b\"content\": \"".data
    "\", \"status\": \"in_progress\", \"priority\": \"high\"\x7d],\n        \"repository\": \"github.com/[org]/[repo]\"\n      \x7d\n      ```".data

/-- Contextual replacement for `memory_create_thread linking (.+)`. -/
def ruleCtxCreateThread : Rule :=
  Rule.ctx "memory_create_thread linking ".data
    "Use `mcp__lerian-memory__memory_create` with:\n      ```\n      operation=\"create_thread\"\n      options=\x7b\n        \"name\": \"".data
    "\",\n        \"description\": \"Linking related content\",\n        \"chunk_ids\": [\"[previous-chunk-ids]\"],\n        \"repository\": \"github.com/[org]/[repo]\"\n      \x7d\n      ```".data

/-- The REPLACEMENTS table in its Python definition (insertion) order: the
five simple backticked-name rules, then the five contextual rules. -/
def REPLACEMENTS : List Rule :=
  [ ruleLitStoreChunk
  , ruleLitSearch
  , ruleLitStoreDecision
  , ruleLitTasks
  , ruleLitCreateThread
  , ruleCtxStoreChunk
  , ruleCtxSearch
  , ruleCtxStoreDecision
  , ruleCtxTasks
  , ruleCtxCreateThread
  ]

/-- The content transformation of `update_file`: sequential application of
each replacement rule, left to right over the table. -/
def applyReplacements (content : List Char) : List Char :=
  REPLACEMENTS.foldl applyRule content

/-- The file system as seen by the script: the set of existing directory
paths, the directory listings, and the file contents. -/
structure FileSys where
  dirs : List String
  files : String → List String
  content : String → List Char

/-- Embedding of `update_file`: read the file, apply the replacements, write
the file back only if changes were made, and report whether it was written. -/
def update_file (fs : FileSys) (filepath : String) : Bool × FileSys :=
  let content := fs.content filepath
  let newContent := applyReplacements content
  if newContent ≠ content then
    (true, { fs with content := fun q => if q = filepath then newContent else fs.content q })
  else
    (false, fs)

/-- The hard-coded base path of the processed repository. -/
def basePath : String := "/Users/fredamaral/Repos/lerianstudio/ai-prompts/"

/-- The six hard-coded directories `main` processes. -/
def directories : List String :=
  [ "1-pre-dev-product"
  , "2-pre-dev-feature"
  , "3-frontend"
  , "4-code-review"
  , "5-generate-docs"
  , "0-memory-system"
  ]

/-- The full path of a processed directory. -/
def dirPath (d : String) : String := basePath ++ d

/-- Embedding of `os.path.join` for a directory path and a plain filename. -/
def joinPath (dp n : String) : String := dp ++ "/" ++ n

/-- Embedding of `filename.endswith(('.mdc', '.md'))`. -/
def endsMdOrMdc (n : String) : Bool :=
  isSuffixB ".mdc".data n.data || isSuffixB ".md".data n.data

/-- Process the filenames of one directory: every `.mdc`/`.md` file is opened
and updated; returns the new file system, the updated paths, and every path
that was opened. -/
def processNames (fs : FileSys) (dp : String) :
    List String → FileSys × List String × List String
  | [] => (fs, [], [])
  | n :: ns =>
      if endsMdOrMdc n then
        let fp := joinPath dp n
        let r := update_file fs fp
        let rest := processNames r.2 dp ns
        (rest.1, (if r.1 then fp :: rest.2.1 else rest.2.1), fp :: rest.2.2)
      else
        processNames fs dp ns

/-- Process a list of directories: directories that do not exist are skipped. -/
def processDirs (fs : FileSys) : List String → FileSys × List String × List String
  | [] => (fs, [], [])
  | d :: ds =>
      if dirPath d ∈ fs.dirs then
        let r := processNames fs (dirPath d) (fs.files (dirPath d))
        let rest := processDirs r.1 ds
        (rest.1, r.2.1 ++ rest.2.1, r.2.2 ++ rest.2.2)
      else
        processDirs fs ds

/-- The `.mdc`/`.md` paths inside the existing hard-coded directories of a
given directory list — exactly the files the script ever touches. -/
def mdPathsOver (fs : FileSys) : List String → List String
  | [] => []
  | d :: ds =>
      if dirPath d ∈ fs.dirs then
        ((fs.files (dirPath d)).filter endsMdOrMdc).map (joinPath (dirPath d))
          ++ mdPathsOver fs ds
      else
        mdPathsOver fs ds

/-- The `.mdc`/`.md` paths inside the six existing hard-coded directories. -/
def mdPaths (fs : FileSys) : List String := mdPathsOver fs directories

/-- Embedding of `main`: phase one rewrites every `.mdc`/`.md` file of the six
hard-coded directories (skipping directories that do not exist); phase two
re-opens the same files read-only to list candidates for manual review.
Returns the final file system, the updated paths, and every opened path.
(The source calls this function `main`; that name is reserved in Lean.) -/
def mainScript (fs : FileSys) : FileSys × List String × List String :=
  let r := processDirs fs directories
  (r.1, r.2.1, r.2.2 ++ mdPaths r.1)

/-! ### Helper lemmas about prefix, infix and metacharacters -/

theorem isPrefixB_append_right (t s e : List Char) (h : isPrefixB t s = true) :
    isPrefixB t (s ++ e) = true := by
  induction t generalizing s with
  | nil => simp [isPrefixB]
  | cons a as ih =>
    cases s with
    | nil => simp [isPrefixB] at h
    | cons b bs =>
      simp only [isPrefixB, Bool.and_eq_true, beq_iff_eq] at h
      simp only [List.cons_append, isPrefixB, Bool.and_eq_true, beq_iff_eq]
      exact ⟨h.1, ih bs h.2⟩

theorem isPrefixB_append_self (l e : List Char) : isPrefixB l (l ++ e) = true := by
  induction l with
  | nil => simp [isPrefixB]
  | cons a as ih => simp [isPrefixB, ih]

theorem isInfixB_of_isPrefixB (t l : List Char) (h : isPrefixB t l = true) :
    isInfixB t l = true := by
  cases l with
  | nil => simpa [isInfixB] using h
  | cons c rest => simp [isInfixB, h]

theorem isInfixB_cons (t : List Char) (c : Char) (l : List Char)
    (h : isInfixB t l = true) : isInfixB t (c :: l) = true := by
  simp [isInfixB, h]

theorem isInfixB_append_left (t x l : List Char) (h : isInfixB t l = true) :
    isInfixB t (x ++ l) = true := by
  induction x with
  | nil => simpa using h
  | cons c cs ih => exact isInfixB_cons t c (cs ++ l) ih

theorem isInfixB_append_right (t l e : List Char) (h : isInfixB t l = true) :
    isInfixB t (l ++ e) = true := by
  induction l with
  | nil =>
    simp only [isInfixB] at h
    exact isInfixB_of_isPrefixB t e (by cases t <;> simp_all [isPrefixB])
  | cons c rest ih =>
    simp only [isInfixB, Bool.or_eq_true] at h
    rcases h with h | h
    · exact isInfixB_of_isPrefixB _ _ (by simpa using isPrefixB_append_right t (c :: rest) e h)
    · exact isInfixB_cons t c (rest ++ e) (ih h)

theorem noMetaStr_mem (t : List Char) (h : noMetaStr t = true) (c : Char)
    (hc : c ∈ t) : metaChar c = false := by
  simp only [noMetaStr, containsMeta, Bool.not_eq_true', List.any_eq_false] at h
  have := h c hc
  simpa using this

theorem isPrefixB_through_meta (t l m : List Char) (c : Char)
    (ht : noMetaStr t = true) (hc : metaChar c = true)
    (h : isPrefixB t (l ++ c :: m) = true) : isPrefixB t l = true := by
  induction t generalizing l with
  | nil => simp [isPrefixB]
  | cons a as ih =>
    cases l with
    | nil =>
      simp only [List.nil_append, isPrefixB, Bool.and_eq_true, beq_iff_eq] at h
      have : metaChar a = false := noMetaStr_mem _ ht a (by simp)
      rw [h.1] at this
      rw [this] at hc
      exact absurd hc (by simp)
    | cons b bs =>
      simp only [List.cons_append, isPrefixB, Bool.and_eq_true, beq_iff_eq] at h
      have hta : noMetaStr as = true := by
        simp only [noMetaStr, containsMeta, Bool.not_eq_true', List.any_eq_false] at ht ⊢
        exact fun x hx => ht x (by simp [hx])
      simp only [isPrefixB, Bool.and_eq_true, beq_iff_eq]
      exact ⟨h.1, ih bs hta h.2⟩

theorem isInfixB_split_meta (t p m : List Char) (c : Char)
    (ht : noMetaStr t = true) (ht0 : t ≠ []) (hc : metaChar c = true)
    (h : isInfixB t (p ++ c :: m) = true) :
    isInfixB t p = true ∨ isInfixB t m = true := by
  induction p with
  | nil =>
    simp only [List.nil_append, isInfixB, Bool.or_eq_true] at h
    rcases h with h | h
    · cases t with
      | nil => exact absurd rfl ht0
      | cons a as =>
        simp only [isPrefixB, Bool.and_eq_true, beq_iff_eq] at h
        have : metaChar a = false := noMetaStr_mem _ ht a (by simp)
        rw [h.1] at this
        rw [this] at hc
        exact absurd hc (by simp)
    · exact Or.inr h
  | cons b bs ih =>
    simp only [List.cons_append, isInfixB, Bool.or_eq_true] at h
    rcases h with h | h
    · left
      exact isInfixB_of_isPrefixB _ _
        (isPrefixB_through_meta t (b :: bs) m c ht hc (by simpa using h))
    · rcases ih h with h' | h'
      · exact Or.inl (isInfixB_cons t b bs h')
      · exact Or.inr h'

theorem isInfixB_consume_meta (t m s : List Char)
    (hm : m.all metaChar = true) (ht : noMetaStr t = true) (ht0 : t ≠ [])
    (h : isInfixB t (m ++ s) = true) : isInfixB t s = true := by
  induction m with
  | nil => simpa using h
  | cons c m' ih =>
    simp only [List.all_cons, Bool.and_eq_true] at hm
    simp only [List.cons_append, isInfixB, Bool.or_eq_true] at h
    rcases h with h | h
    · cases t with
      | nil => exact absurd rfl ht0
      | cons a as =>
        simp only [isPrefixB, Bool.and_eq_true, beq_iff_eq] at h
        have : metaChar a = false := noMetaStr_mem _ ht a (by simp)
        rw [h.1] at this
        rw [this] at hm
        exact absurd hm.1 (by simp)
    · exact ih hm.2 h

theorem isPrefixB_drop_meta_tail (t l w : List Char)
    (ht : noMetaStr t = true) (hw : w.all metaChar = true)
    (h : isPrefixB t (l ++ w) = true) : isPrefixB t l = true := by
  induction t generalizing l with
  | nil => simp [isPrefixB]
  | cons a as ih =>
    cases l with
    | nil =>
      cases w with
      | nil => simpa using h
      | cons wc w' =>
        simp only [List.nil_append, isPrefixB, Bool.and_eq_true, beq_iff_eq] at h
        simp only [List.all_cons, Bool.and_eq_true] at hw
        have : metaChar a = false := noMetaStr_mem _ ht a (by simp)
        rw [h.1] at this
        rw [this] at hw
        exact absurd hw.1 (by simp)
    | cons b bs =>
      simp only [List.cons_append, isPrefixB, Bool.and_eq_true, beq_iff_eq] at h
      have hta : noMetaStr as = true := by
        simp only [noMetaStr, containsMeta, Bool.not_eq_true', List.any_eq_false] at ht ⊢
        exact fun x hx => ht x (by simp [hx])
      simp only [isPrefixB, Bool.and_eq_true, beq_iff_eq]
      exact ⟨h.1, ih bs hta h.2⟩

theorem isInfixB_drop_meta_tail (t d w : List Char)
    (ht : noMetaStr t = true) (ht0 : t ≠ []) (hw : w.all metaChar = true)
    (h : isInfixB t (d ++ w) = true) : isInfixB t d = true := by
  induction d with
  | nil =>
    have h' : isInfixB t (w ++ []) = true := by simpa using h
    exact isInfixB_consume_meta t w [] hw ht ht0 h'
  | cons c d' ih =>
    simp only [List.cons_append, isInfixB, Bool.or_eq_true] at h
    rcases h with h | h
    · exact isInfixB_of_isPrefixB _ _
        (isPrefixB_drop_meta_tail t (c :: d') w ht hw (by simpa using h))
    · exact isInfixB_cons t c d' (ih h)

theorem isInfixB_chain_split (t p m s : List Char)
    (hm : m.all metaChar = true) (hm0 : m ≠ [])
    (ht : noMetaStr t = true) (ht0 : t ≠ [])
    (h : isInfixB t (p ++ (m ++ s)) = true) :
    isInfixB t p = true ∨ isInfixB t s = true := by
  cases m with
  | nil => exact absurd rfl hm0
  | cons c m' =>
    simp only [List.all_cons, Bool.and_eq_true] at hm
    have h' : isInfixB t (p ++ c :: (m' ++ s)) = true := by simpa using h
    rcases isInfixB_split_meta t p (m' ++ s) c ht ht0 hm.1 h' with h1 | h1
    · exact Or.inl h1
    · exact Or.inr (isInfixB_consume_meta t m' s hm.2 ht ht0 h1)

/-! ### Lemmas about the Invocation Detector and the rule scans -/

theorem dollarHit_append (t rest e : List Char) (h : dollarHit t rest = true) :
    dollarHit t (rest ++ e) = true := by
  cases rest with
  | nil => simp [dollarHit] at h
  | cons c r =>
    simp only [dollarHit, Bool.and_eq_true] at h
    simp only [List.cons_append, dollarHit, Bool.and_eq_true]
    exact ⟨h.1, isPrefixB_append_right t r e h.2⟩

theorem detectFrom_cons (t : List Char) (c : Char) (l : List Char)
    (h : detectFrom t l = true) : detectFrom t (c :: l) = true := by
  simp [detectFrom, h]

theorem detectFrom_append_left (t x l : List Char) (h : detectFrom t l = true) :
    detectFrom t (x ++ l) = true := by
  induction x with
  | nil => simpa using h
  | cons c cs ih => exact detectFrom_cons t c (cs ++ l) ih

theorem detectFrom_append_right (t l e : List Char) (h : detectFrom t l = true) :
    detectFrom t (l ++ e) = true := by
  induction l with
  | nil => simp [detectFrom] at h
  | cons c rest ih =>
    simp only [detectFrom, Bool.or_eq_true, Bool.and_eq_true] at h
    simp only [List.cons_append, detectFrom, Bool.or_eq_true, Bool.and_eq_true]
    rcases h with (⟨h1, h2⟩ | ⟨h1, h2⟩) | h
    · exact Or.inl (Or.inl ⟨h1, dollarHit_append t rest e h2⟩)
    · exact Or.inl (Or.inr ⟨h1, isPrefixB_append_right t rest e h2⟩)
    · exact Or.inr (ih h)

theorem safeFilterWith_of_meta (st : List (List Char)) (s : List Char)
    (h : containsMeta s = true) : safeFilterWith st s = false := by
  simp only [safeFilterWith, List.any_eq_false]
  intro pat _
  simp [safeMatch, h]

theorem containsMeta_chain (p m s : List Char) (hm : m.any metaChar = true) :
    containsMeta (p ++ (m ++ s)) = true := by
  simp only [containsMeta, List.any_append, Bool.or_eq_true]
  exact Or.inr (Or.inl hm)

theorem dangerScan_chain (dt : List (List Char × List Char)) (p m d w : List Char)
    (hdt : ∀ q ∈ dt, q.1 ≠ [] ∧ noMetaStr q.1 = true)
    (hp : ∀ q ∈ dt, isInfixB q.1 p = false)
    (hm : m.all metaChar = true) (hm0 : m ≠ [])
    (hw : w.all metaChar = true) :
    dangerScan dt (p ++ (m ++ (d ++ w))) = dangerScan dt d := by
  induction dt with
  | nil => rfl
  | cons q rest ih =>
    obtain ⟨pat, reason⟩ := q
    have hq := hdt (pat, reason) (by simp)
    have hqp := hp (pat, reason) (by simp)
    have key : isInfixB pat (p ++ (m ++ (d ++ w))) = isInfixB pat d := by
      cases hd : isInfixB pat d with
      | true =>
        have h1 : isInfixB pat (d ++ w) = true := isInfixB_append_right pat d w hd
        have h2 : isInfixB pat (m ++ (d ++ w)) = true := isInfixB_append_left pat m _ h1
        exact isInfixB_append_left pat p _ h2
      | false =>
        cases hc : isInfixB pat (p ++ (m ++ (d ++ w))) with
        | false => rfl
        | true =>
          rcases isInfixB_chain_split pat p m (d ++ w) hm hm0 hq.2 hq.1 hc with h1 | h1
          · rw [hqp] at h1; exact absurd h1 (by simp)
          · have := isInfixB_drop_meta_tail pat d w hq.2 hq.1 hw h1
            rw [hd] at this; exact absurd this (by simp)
    by_cases hd : isInfixB pat d = true
    · simp [dangerScan, key, hd]
    · simp only [Bool.not_eq_true] at hd
      have e1 : dangerScan ((pat, reason) :: rest) (p ++ (m ++ (d ++ w)))
          = dangerScan rest (p ++ (m ++ (d ++ w))) := by
        simp [dangerScan, key, hd]
      have e2 : dangerScan ((pat, reason) :: rest) d = dangerScan rest d := by
        simp [dangerScan, hd]
      rw [e1, e2]
      exact ih (fun q hq' => hdt q (by simp [hq'])) (fun q hq' => hp q (by simp [hq']))

theorem mem_any_of_all_meta (m : List Char) (hm : m.all metaChar = true)
    (hm0 : m ≠ []) : m.any metaChar = true := by
  cases m with
  | nil => exact absurd rfl hm0
  | cons c m' =>
    simp only [List.all_cons, Bool.and_eq_true] at hm
    simp [hm.1]

theorem evalL_chain (lP lD m w r : List Char)
    (hm : m.all metaChar = true) (hm0 : m ≠ [])
    (hw : w.all metaChar = true)
    (hsep : ∀ l, isPrefixB gitTool l = true → detectFrom gitTool (m ++ l) = true)
    (hP : ∀ q ∈ dangerRules, isInfixB q.1 lP = false)
    (hD : evalL lD = Verdict.block r) :
    evalL (lP ++ (m ++ (lD ++ w))) = Verdict.block r := by
  have hdt : ∀ q ∈ dangerRules, q.1 ≠ [] ∧ noMetaStr q.1 = true := by decide
  -- unpack the verdict on the bare dangerous command
  by_cases h1 : detectInvocation gitTool lD = true
  · by_cases h2 : safeFilterWith safeRules lD = true
    · simp [evalL, evalWith, h1, h2] at hD
    · cases h3 : dangerScan dangerRules lD with
      | none => simp [evalL, evalWith, h1, h2, h3] at hD
      | some rr =>
        have hrr : rr = r := by
          simpa [evalL, evalWith, h1, h2, h3] using hD
        subst hrr
        -- the detector fires on the chained command
        have hdet : detectInvocation gitTool (lP ++ (m ++ (lD ++ w))) = true := by
          simp only [detectInvocation, Bool.or_eq_true] at h1 ⊢
          rcases h1 with h1 | h1
          · exact Or.inr (detectFrom_append_left gitTool lP _
              (hsep (lD ++ w) (isPrefixB_append_right gitTool lD w h1)))
          · exact Or.inr (detectFrom_append_left gitTool lP _
              (detectFrom_append_left gitTool m _
                (detectFrom_append_right gitTool lD w h1)))
        -- the safe filter cannot match the chained command
        have hsafe : safeFilterWith safeRules (lP ++ (m ++ (lD ++ w))) = false :=
          safeFilterWith_of_meta _ _
            (containsMeta_chain lP m (lD ++ w) (mem_any_of_all_meta m hm hm0))
        -- the danger scan is unchanged
        have hscan : dangerScan dangerRules (lP ++ (m ++ (lD ++ w)))
            = dangerScan dangerRules lD :=
          dangerScan_chain dangerRules lP m lD w hdt hP hm hm0 hw
        simp [evalL, evalWith, hdet, hsafe, hscan, h3]
  · simp [evalL, evalWith, h1] at hD

/-- First-match behaviour of the Danger-List Matcher over a split table. -/
theorem dangerScan_first (pre : List (List Char × List Char)) (pat r : List Char)
    (post : List (List Char × List Char)) (s : List Char)
    (hpre : ∀ q ∈ pre, isInfixB q.1 s = false) (hpat : isInfixB pat s = true) :
    dangerScan (pre ++ (pat, r) :: post) s = some r := by
  induction pre with
  | nil => simp [dangerScan, hpat]
  | cons q rest ih =>
    obtain ⟨qp, qr⟩ := q
    have hq : isInfixB qp s = false := hpre (qp, qr) (by simp)
    have step : dangerScan ((qp, qr) :: (rest ++ (pat, r) :: post)) s
        = dangerScan (rest ++ (pat, r) :: post) s := by
      simp [dangerScan, hq]
    rw [List.cons_append, step]
    exact ih (fun q hq' => hpre q (by simp [hq']))

/-! ### Claims about the classifier -/

/-- C1: for every RawCommand string the evaluation composes the three steps
in a fixed order — detector false gives ALLOW; detector true and safe filter
true gives ALLOW; detector true, safe filter false and a danger match gives
BLOCK with that rule's reason; otherwise ALLOW. -/
theorem claim1_verdict_composition (c : String) :
    (detectInvocation gitTool (lowerStr c.data) = false → evaluate c = Verdict.allow)
  ∧ (detectInvocation gitTool (lowerStr c.data) = true →
      safeFilter (lowerStr c.data) = true → evaluate c = Verdict.allow)
  ∧ (∀ r, detectInvocation gitTool (lowerStr c.data) = true →
      safeFilter (lowerStr c.data) = false →
      dangerScan dangerRules (lowerStr c.data) = some r →
      evaluate c = Verdict.block r)
  ∧ (detectInvocation gitTool (lowerStr c.data) = true →
      safeFilter (lowerStr c.data) = false →
      dangerScan dangerRules (lowerStr c.data) = none →
      evaluate c = Verdict.allow) := by
  refine ⟨fun h1 => ?_, fun h1 h2 => ?_, fun r h1 h2 h3 => ?_, fun h1 h2 h3 => ?_⟩
  · simp [evaluate, evalL, evalWith, h1]
  · simp only [safeFilter] at h2
    simp [evaluate, evalL, evalWith, h1, h2]
  · simp only [safeFilter] at h2
    simp [evaluate, evalL, evalWith, h1, h2, h3]
  · simp only [safeFilter] at h2
    simp [evaluate, evalL, evalWith, h1, h2, h3]

/-- Witness for C1: a committing command goes through the danger branch. -/
theorem claim1_verdict_composition_witness :
    evaluate "git commit -m note" = Verdict.block ("commit is blocked".data) :=
  (claim1_verdict_composition "git commit -m note").2.2.1 ("commit is blocked".data)
    (by decide) (by decide) (by decide)

/-- C2: a command matching at least one SafeRule is ALLOWed, whatever the
DangerRules table contains — no danger scan result can override a safe match. -/
theorem claim2_safe_precedence (c : String)
    (h : ∃ pat ∈ safeRules, safeMatch pat (lowerStr c.data) = true) :
    evaluate c = Verdict.allow ∧
      ∀ dt, evalWith safeRules dt (lowerStr c.data) = Verdict.allow := by
  have hf : safeFilterWith safeRules (lowerStr c.data) = true := by
    obtain ⟨pat, hmem, hmatch⟩ := h
    simp only [safeFilterWith, List.any_eq_true]
    exact ⟨pat, hmem, hmatch⟩
  constructor
  · simp [evaluate, evalL, evalWith, hf]
  · intro dt
    simp [evalWith, hf]

/-- Witness for C2: the dry-run fetch matches a SafeRule even though the
broad `git fetch` danger pattern also occurs in the command. -/
theorem claim2_safe_precedence_witness :
    evaluate "git fetch --dry-run origin" = Verdict.allow :=
  (claim2_safe_precedence "git fetch --dry-run origin"
    ⟨"git fetch --dry-run".data, by decide, by decide⟩).1

/-- C3: chaining a dangerous sub-command `D` after a benign prefix `P` via
`;`, `&&`, `|`, backticks or `$(...)` yields BLOCK with the same reason as
evaluating the bare dangerous form alone.  The prefix is benign in the sense
that no danger pattern occurs inside it. -/
theorem claim3_injection_resistance (P D : String) (op : ChainOp) (r : List Char)
    (hD : evaluate D = Verdict.block r)
    (hP : ∀ q ∈ dangerRules, isInfixB q.1 (lowerStr P.data) = false) :
    evaluate (chainS op P D) = Verdict.block r := by
  have e : lowerStr (chainS op P D).data
      = lowerStr P.data ++ (lowerStr (sepPre op).data
          ++ (lowerStr D.data ++ lowerStr (sepPost op).data)) := by
    simp only [chainS, String.data_append, lowerStr, List.map_append, List.append_assoc]
  show evalL (lowerStr (chainS op P D).data) = Verdict.block r
  rw [e]
  refine evalL_chain (lowerStr P.data) (lowerStr D.data) _ _ r ?_ ?_ ?_ ?_ hP hD
  · cases op <;> decide
  · cases op <;> decide
  · cases op <;> decide
  · intro l h
    cases op with
    | semi =>
      have e1 : lowerStr (sepPre ChainOp.semi).data = [';'] := by decide
      have e2 : isSepChar ';' = true := by decide
      rw [e1]
      simp [detectFrom, e2, h]
    | andand =>
      have e1 : lowerStr (sepPre ChainOp.andand).data = ['&', '&'] := by decide
      have e2 : isSepChar '&' = true := by decide
      rw [e1]
      simp [detectFrom, e2, h]
    | pipe =>
      have e1 : lowerStr (sepPre ChainOp.pipe).data = ['|'] := by decide
      have e2 : isSepChar '|' = true := by decide
      rw [e1]
      simp [detectFrom, e2, h]
    | backtick =>
      have e1 : lowerStr (sepPre ChainOp.backtick).data = ['`'] := by decide
      have e2 : isSepChar '`' = true := by decide
      rw [e1]
      simp [detectFrom, e2, h]
    | subst =>
      have e1 : lowerStr (sepPre ChainOp.subst).data = ['$', '('] := by decide
      have e2 : ('$' == '$') = true := by decide
      have e3 : ('(' == '(') = true := by decide
      rw [e1]
      simp [detectFrom, dollarHit, e2, e3, h]

/-- Witness for C3: a benign status query chained via `;` to a hard reset
blocks with exactly the hard reset's reason. -/
theorem claim3_injection_resistance_witness :
    evaluate (chainS ChainOp.semi "git status" "git reset --hard")
      = Verdict.block ("hard reset destroys local history and is blocked".data) :=
  claim3_injection_resistance "git status" "git reset --hard" ChainOp.semi
    ("hard reset destroys local history and is blocked".data) (by decide) (by decide)

/-- C4: a command in which the governed tool's name never occurs at a command
boundary is ALLOWed, and the verdict is independent of both rule tables —
neither list is consulted. -/
theorem claim4_non_invocation_pass_through (c : String)
    (h : detectInvocation gitTool (lowerStr c.data) = false) :
    evaluate c = Verdict.allow ∧
      ∀ st dt, evalWith st dt (lowerStr c.data) = Verdict.allow := by
  constructor
  · simp [evaluate, evalL, evalWith, h]
  · intro st dt
    simp [evalWith, h]

/-- Witness for C4: an unrelated command that never names the governed tool
at a boundary (the word digit contains the letters but not at a boundary). -/
theorem claim4_non_invocation_pass_through_witness :
    evaluate "echo digit" = Verdict.allow :=
  (claim4_non_invocation_pass_through "echo digit" (by decide)).1

/-- C5: the Danger-List Matcher returns the reason of the first matching rule
of the ordered DangerRules table, so a command matching both a broad pattern
and an earlier, narrower one reports the narrower pattern's reason. -/
theorem claim5_danger_first_match (pre post : List (List Char × List Char))
    (pat r s : List Char)
    (htable : dangerRules = pre ++ (pat, r) :: post)
    (hpre : ∀ q ∈ pre, isInfixB q.1 s = false)
    (hpat : isInfixB pat s = true) :
    dangerScan dangerRules s = some r := by
  rw [htable]
  exact dangerScan_first pre pat r post s hpre hpat

/-- Witness for C5: `git reset --hard origin/main` matches both the narrow
`git reset --hard` rule and the broader `git reset` rule that follows it in
the table; the scan reports the narrow rule's reason. -/
theorem claim5_danger_first_match_witness :
    dangerScan dangerRules ("git reset --hard origin/main".data)
      = some ("hard reset destroys local history and is blocked".data) :=
  claim5_danger_first_match (dangerRules.take 6) (dangerRules.drop 7)
    ("git reset --hard".data)
    ("hard reset destroys local history and is blocked".data)
    ("git reset --hard origin/main".data)
    (by decide) (by decide) (by decide)

/-- C6: evaluation is case-insensitive — any two commands with the same
lowercase normal form receive the same Verdict, so uppercase or mixed-case
variants of a dangerous sub-command behave like the lowercase form. -/
theorem claim6_case_insensitive (c₁ c₂ : String)
    (h : lowerStr c₁.data = lowerStr c₂.data) : evaluate c₁ = evaluate c₂ := by
  simp [evaluate, h]

/-- Witness for C6: a mixed-case push is judged exactly like the lowercase
push. -/
theorem claim6_case_insensitive_witness :
    evaluate "GIT Push origin" = evaluate "git push origin" :=
  claim6_case_insensitive "GIT Push origin" "git push origin" (by decide)

/-- C7: evaluation is deterministic and pure — the verdict does not depend on
the ambient environment (clock or file system), and two successive
evaluations of the same RawCommand agree. -/
theorem claim7_deterministic (e₁ e₂ : AmbientEnv) (c : String) :
    evaluateIn e₁ c = evaluateIn e₂ c ∧ (evalTwice c).1 = (evalTwice c).2 :=
  ⟨rfl, rfl⟩

/-! ### Lemmas about the update script -/

theorem update_file_dirs (fs : FileSys) (p : String) :
    (update_file fs p).2.dirs = fs.dirs := by
  simp only [update_file]
  split <;> rfl

theorem update_file_files (fs : FileSys) (p : String) :
    (update_file fs p).2.files = fs.files := by
  simp only [update_file]
  split <;> rfl

theorem update_file_frame (fs : FileSys) (p q : String) (h : q ≠ p) :
    (update_file fs p).2.content q = fs.content q := by
  simp only [update_file]
  split
  · simp [h]
  · rfl

theorem processNames_dirs (fs : FileSys) (dp : String) (ns : List String) :
    (processNames fs dp ns).1.dirs = fs.dirs := by
  induction ns generalizing fs with
  | nil => rfl
  | cons n ns ih =>
    by_cases hn : endsMdOrMdc n = true
    · simp only [processNames, hn, if_true]
      rw [ih]
      exact update_file_dirs fs (joinPath dp n)
    · simp only [processNames, hn, Bool.false_eq_true, if_false]
      exact ih fs

theorem processNames_files (fs : FileSys) (dp : String) (ns : List String) :
    (processNames fs dp ns).1.files = fs.files := by
  induction ns generalizing fs with
  | nil => rfl
  | cons n ns ih =>
    by_cases hn : endsMdOrMdc n = true
    · simp only [processNames, hn, if_true]
      rw [ih]
      exact update_file_files fs (joinPath dp n)
    · simp only [processNames, hn, Bool.false_eq_true, if_false]
      exact ih fs

theorem processNames_content (fs : FileSys) (dp : String) (ns : List String)
    (q : String) (h : q ∉ (ns.filter endsMdOrMdc).map (joinPath dp)) :
    (processNames fs dp ns).1.content q = fs.content q := by
  induction ns generalizing fs with
  | nil => rfl
  | cons n ns ih =>
    by_cases hn : endsMdOrMdc n = true
    · have hsplit : q ≠ joinPath dp n ∧ q ∉ (ns.filter endsMdOrMdc).map (joinPath dp) := by
        rw [List.filter_cons_of_pos hn, List.map_cons] at h
        exact ⟨fun he => h (by simp [he]), fun he => h (by simp [he])⟩
      simp only [processNames, hn, if_true]
      rw [ih _ hsplit.2]
      exact update_file_frame fs (joinPath dp n) q hsplit.1
    · have h' : q ∉ (ns.filter endsMdOrMdc).map (joinPath dp) := by
        rwa [List.filter_cons_of_neg (by simpa using hn)] at h
      simp only [processNames, hn, Bool.false_eq_true, if_false]
      exact ih fs h'

theorem processNames_opened (fs : FileSys) (dp : String) (ns : List String) :
    (processNames fs dp ns).2.2 = (ns.filter endsMdOrMdc).map (joinPath dp) := by
  induction ns generalizing fs with
  | nil => rfl
  | cons n ns ih =>
    by_cases hn : endsMdOrMdc n = true
    · simp only [processNames, hn, if_true, List.filter_cons_of_pos hn, List.map_cons]
      rw [ih]
    · simp only [processNames, hn, Bool.false_eq_true, if_false,
        List.filter_cons_of_neg (by simpa using hn)]
      exact ih fs

theorem mdPathsOver_congr (fs fs' : FileSys) (ds : List String)
    (hd : fs'.dirs = fs.dirs) (hf : fs'.files = fs.files) :
    mdPathsOver fs' ds = mdPathsOver fs ds := by
  induction ds with
  | nil => rfl
  | cons d ds ih => simp only [mdPathsOver, hd, hf, ih]

theorem processDirs_dirs (fs : FileSys) (ds : List String) :
    (processDirs fs ds).1.dirs = fs.dirs := by
  induction ds generalizing fs with
  | nil => rfl
  | cons d ds ih =>
    by_cases hd : dirPath d ∈ fs.dirs
    · simp only [processDirs, hd, if_true]
      rw [ih]
      exact processNames_dirs fs (dirPath d) (fs.files (dirPath d))
    · simp only [processDirs, hd, if_false]
      exact ih fs

theorem processDirs_files (fs : FileSys) (ds : List String) :
    (processDirs fs ds).1.files = fs.files := by
  induction ds generalizing fs with
  | nil => rfl
  | cons d ds ih =>
    by_cases hd : dirPath d ∈ fs.dirs
    · simp only [processDirs, hd, if_true]
      rw [ih]
      exact processNames_files fs (dirPath d) (fs.files (dirPath d))
    · simp only [processDirs, hd, if_false]
      exact ih fs

theorem processDirs_content (fs : FileSys) (ds : List String) (q : String)
    (h : q ∉ mdPathsOver fs ds) :
    (processDirs fs ds).1.content q = fs.content q := by
  induction ds generalizing fs with
  | nil => rfl
  | cons d ds ih =>
    by_cases hd : dirPath d ∈ fs.dirs
    · have hsplit : q ∉ ((fs.files (dirPath d)).filter endsMdOrMdc).map (joinPath (dirPath d))
          ∧ q ∉ mdPathsOver fs ds := by
        simp only [mdPathsOver, hd, if_true, List.mem_append] at h
        exact ⟨fun he => h (Or.inl he), fun he => h (Or.inr he)⟩
      simp only [processDirs, hd, if_true]
      have hrec : q ∉ mdPathsOver (processNames fs (dirPath d) (fs.files (dirPath d))).1 ds := by
        rw [mdPathsOver_congr fs _ ds
          (processNames_dirs fs (dirPath d) (fs.files (dirPath d)))
          (processNames_files fs (dirPath d) (fs.files (dirPath d)))]
        exact hsplit.2
      rw [ih _ hrec]
      exact processNames_content fs (dirPath d) (fs.files (dirPath d)) q hsplit.1
    · have h' : q ∉ mdPathsOver fs ds := by
        simpa only [mdPathsOver, hd, if_false] using h
      simp only [processDirs, hd, if_false]
      exact ih fs h'

theorem processDirs_opened (fs : FileSys) (ds : List String) :
    (processDirs fs ds).2.2 = mdPathsOver fs ds := by
  induction ds generalizing fs with
  | nil => rfl
  | cons d ds ih =>
    by_cases hd : dirPath d ∈ fs.dirs
    · simp only [processDirs, hd, if_true, mdPathsOver]
      rw [processNames_opened, ih]
      rw [mdPathsOver_congr fs _ ds
        (processNames_dirs fs (dirPath d) (fs.files (dirPath d)))
        (processNames_files fs (dirPath d) (fs.files (dirPath d)))]
    · simp only [processDirs, hd, if_false, mdPathsOver]
      exact ih fs

theorem mdPathsOver_spec (fs : FileSys) (ds : List String) (q : String)
    (h : q ∈ mdPathsOver fs ds) :
    ∃ d ∈ ds, ∃ n, n ∈ fs.files (dirPath d) ∧ endsMdOrMdc n = true
      ∧ q = joinPath (dirPath d) n := by
  induction ds with
  | nil => simp [mdPathsOver] at h
  | cons d ds ih =>
    by_cases hd : dirPath d ∈ fs.dirs
    · simp only [mdPathsOver, hd, if_true, List.mem_append] at h
      rcases h with h | h
      · obtain ⟨n, hn, rfl⟩ := List.mem_map.mp h
        have hn' := List.mem_filter.mp hn
        exact ⟨d, by simp, n, hn'.1, hn'.2, rfl⟩
      · obtain ⟨d', hd', rest⟩ := ih h
        exact ⟨d', by simp [hd'], rest⟩
    · simp only [mdPathsOver, hd, if_false] at h
      obtain ⟨d', hd', rest⟩ := ih h
      exact ⟨d', by simp [hd'], rest⟩

theorem isSuffixB_append_left (t x s : List Char) (h : isSuffixB t s = true) :
    isSuffixB t (x ++ s) = true := by
  simp only [isSuffixB, List.reverse_append]
  exact isPrefixB_append_right t.reverse s.reverse x.reverse h

theorem joinPath_data (dp n : String) :
    (joinPath dp n).data = (dp ++ "/").data ++ n.data :=
  String.data_append (dp ++ "/") n

theorem endsMdOrMdc_joinPath (dp n : String) (h : endsMdOrMdc n = true) :
    endsMdOrMdc (joinPath dp n) = true := by
  simp only [endsMdOrMdc, Bool.or_eq_true] at h ⊢
  rcases h with h | h
  · exact Or.inl (by rw [joinPath_data]; exact isSuffixB_append_left _ _ _ h)
  · exact Or.inr (by rw [joinPath_data]; exact isSuffixB_append_left _ _ _ h)

/-! ### Claims about the update script -/

/-- C8: `update_file` returns true exactly when applying the REPLACEMENTS
substitutions changes the content; in that case the file holds the
transformed content and all other files are untouched, and when nothing
changes, the entire file system is left unchanged and false is returned. -/
theorem claim8_update_file_write_iff (fs : FileSys) (p : String) :
    ((update_file fs p).1 = true ↔ applyReplacements (fs.content p) ≠ fs.content p)
  ∧ (applyReplacements (fs.content p) = fs.content p → (update_file fs p).2 = fs)
  ∧ (applyReplacements (fs.content p) ≠ fs.content p →
      (update_file fs p).2.content p = applyReplacements (fs.content p)
      ∧ ∀ q, q ≠ p → (update_file fs p).2.content q = fs.content q) := by
  by_cases h : applyReplacements (fs.content p) = fs.content p
  · refine ⟨?_, fun _ => ?_, fun hne => absurd h hne⟩
    · simp [update_file, h]
    · simp [update_file, h]
  · refine ⟨?_, fun he => absurd he h, fun _ => ?_⟩
    · simp [update_file, h]
    · constructor
      · simp [update_file, h]
      · intro q hq
        simp [update_file, h, hq]

/-- File system used by the witnesses: one existing hard-coded directory with
one markdown file and one text file, all contents containing a Memory MCP
reference. -/
def witnessFS : FileSys :=
  { dirs := [dirPath "1-pre-dev-product"]
  , files := fun dp => if dp = dirPath "1-pre-dev-product" then ["a.md", "b.txt"] else []
  , content := fun _ => "see `memory_search` here".data
  }

/-- Witness for C8: a content with a Memory MCP reference is rewritten, so
`update_file` reports true. -/
theorem claim8_update_file_write_iff_witness :
    (update_file witnessFS "a.md").1 = true :=
  ((claim8_update_file_write_iff witnessFS "a.md").1).mpr (by decide)

/-- C9: the content transformation of `update_file` is exactly the
left-to-right sequential application of the ten substitutions of the
REPLACEMENTS table in definition order — the five simple backticked-name
rules first, then the five contextual rules — and is a pure function of the
input text. -/
theorem claim9_sequential_replacements (c : List Char) :
    applyReplacements c =
      applyRule (applyRule (applyRule (applyRule (applyRule (applyRule
        (applyRule (applyRule (applyRule (applyRule c
          ruleLitStoreChunk) ruleLitSearch) ruleLitStoreDecision) ruleLitTasks)
          ruleLitCreateThread) ruleCtxStoreChunk) ruleCtxSearch)
          ruleCtxStoreDecision) ruleCtxTasks) ruleCtxCreateThread
    ∧ ∀ c' : List Char, c = c' → applyReplacements c = applyReplacements c' := by
  constructor
  · simp only [applyReplacements, REPLACEMENTS, List.foldl_cons, List.foldl_nil]
  · exact fun _ h => by rw [h]

/-- Witness for C9: the sequential composition instantiated on a concrete
content, with the purity hypothesis discharged at that input. -/
theorem claim9_sequential_replacements_witness :
    (applyReplacements "memory_search for topics".data =
      applyRule (applyRule (applyRule (applyRule (applyRule (applyRule
        (applyRule (applyRule (applyRule (applyRule "memory_search for topics".data
          ruleLitStoreChunk) ruleLitSearch) ruleLitStoreDecision) ruleLitTasks)
          ruleLitCreateThread) ruleCtxStoreChunk) ruleCtxSearch)
          ruleCtxStoreDecision) ruleCtxTasks) ruleCtxCreateThread)
    ∧ applyReplacements "memory_search for topics".data
        = applyReplacements "memory_search for topics".data :=
  ⟨(claim9_sequential_replacements "memory_search for topics".data).1,
    (claim9_sequential_replacements "memory_search for topics".data).2
      "memory_search for topics".data rfl⟩

/-- C10: a run of `main` only ever opens files ending in `.mdc` or `.md`
inside the six hard-coded directories (directories that do not exist
contribute nothing), and the content of every other path is unchanged. -/
theorem claim10_main_frame (fs : FileSys) (p : String) (hp : p ∉ mdPaths fs) :
    (mainScript fs).1.content p = fs.content p
  ∧ ∀ q ∈ (mainScript fs).2.2,
      endsMdOrMdc q = true
      ∧ ∃ d ∈ directories, isPrefixB (dirPath d ++ "/").data q.data = true := by
  constructor
  · exact processDirs_content fs directories p hp
  · intro q hq
    have e1 : (mainScript fs).2.2
        = mdPathsOver fs directories ++ mdPathsOver fs directories := by
      show (processDirs fs directories).2.2
          ++ mdPaths (processDirs fs directories).1 = _
      rw [processDirs_opened, mdPaths,
        mdPathsOver_congr fs _ directories
          (processDirs_dirs fs directories) (processDirs_files fs directories)]
    rw [e1] at hq
    have hq' : q ∈ mdPathsOver fs directories := by
      rcases List.mem_append.mp hq with h | h <;> exact h
    obtain ⟨d, hd, n, _, hend, rfl⟩ := mdPathsOver_spec fs directories q hq'
    refine ⟨endsMdOrMdc_joinPath (dirPath d) n hend, d, hd, ?_⟩
    rw [joinPath_data]
    exact isPrefixB_append_self (dirPath d ++ "/").data n.data

/-- Witness for C10: a `.txt` file inside a processed directory is not among
the touched paths and keeps its contents. -/
theorem claim10_main_frame_witness :
    (mainScript witnessFS).1.content (joinPath (dirPath "1-pre-dev-product") "b.txt")
      = witnessFS.content (joinPath (dirPath "1-pre-dev-product") "b.txt") :=
  (claim10_main_frame witnessFS (joinPath (dirPath "1-pre-dev-product") "b.txt")
    (by decide)).1
